import Mathlib

/-!
Verification of the loom little-endian binary codec (the Le* functions of
the binary package) and of the RS hash pair of the hash package.

Byte buffers (Go []byte) are modelled as List Nat with each element
interpreted modulo 256; machine integers are Nat / Int with the width
conversions of the Go code made explicit as reductions modulo powers of
two. Floating point values pass through the codec only as their IEEE-754
bit patterns (math.Float32bits / math.Float32frombits are mutually inverse
bijections on bit patterns), so the embedding carries those patterns as
Nat. Strings enter as their raw byte sequences.
-/

namespace Loom

/-- Little-endian layout of the low `n` bytes of `v`, as
binary.LittleEndian.PutUint16/32/64 write them. -/
def putLE : Nat → Nat → List Nat
  | 0, _ => []
  | n + 1, v => v % 256 :: putLE n (v / 256)

/-- Little-endian read of a byte buffer, as binary.LittleEndian.Uint16/32/64
read exactly the bytes handed to them. -/
def getLE : List Nat → Nat
  | [] => 0
  | c :: rest => c % 256 + 256 * getLE rest

/-- Reinterpretation of an unsigned `bits`-wide value as a two's-complement
signed integer: the Go conversions int8(b), int16(u), int32(u), int64(u). -/
def toSigned (bits : Nat) (n : Nat) : Int :=
  if n < 2 ^ (bits - 1) then (n : Int) else (n : Int) - 2 ^ bits

/-- LeEncodeInt8: one raw byte (byte(i) is the two's-complement byte). -/
def LeEncodeInt8 (i : Int) : List Nat := [(i % 256).toNat]

/-- LeEncodeUint8: one raw byte. -/
def LeEncodeUint8 (i : Nat) : List Nat := [i % 256]

/-- LeEncodeInt16: PutUint16 of uint16(i). -/
def LeEncodeInt16 (i : Int) : List Nat := putLE 2 (i % 65536).toNat

/-- LeEncodeUint16. -/
def LeEncodeUint16 (i : Nat) : List Nat := putLE 2 i

/-- LeEncodeInt32: PutUint32 of uint32(i). -/
def LeEncodeInt32 (i : Int) : List Nat := putLE 4 (i % 4294967296).toNat

/-- LeEncodeUint32. -/
def LeEncodeUint32 (i : Nat) : List Nat := putLE 4 i

/-- LeEncodeInt64: PutUint64 of uint64(i). -/
def LeEncodeInt64 (i : Int) : List Nat := putLE 8 (i % 18446744073709551616).toNat

/-- LeEncodeUint64. -/
def LeEncodeUint64 (i : Nat) : List Nat := putLE 8 i

/-- LeEncodeBool. -/
def LeEncodeBool (b : Bool) : List Nat := if b then [1] else [0]

/-- LeEncodeString: the raw bytes of the string. -/
def LeEncodeString (s : List Nat) : List Nat := s

/-- LeEncodeFloat32 on the IEEE-754 bit pattern (math.Float32bits applied). -/
def LeEncodeFloat32 (bits : Nat) : List Nat := putLE 4 bits

/-- LeEncodeFloat64 on the IEEE-754 bit pattern (math.Float64bits applied). -/
def LeEncodeFloat64 (bits : Nat) : List Nat := putLE 8 bits

/-- LeEncodeInt: the adaptive sizer for native-width signed integers. The Go
code compares i against math.MaxInt8 / MaxInt16 / MaxInt32 only, then
converts (truncating) to the chosen narrower type. -/
def LeEncodeInt (i : Int) : List Nat :=
  if i ≤ 127 then LeEncodeInt8 i
  else if i ≤ 32767 then LeEncodeInt16 i
  else if i ≤ 2147483647 then LeEncodeInt32 i
  else LeEncodeInt64 i

/-- LeEncodeUint: the adaptive sizer for native-width unsigned integers. -/
def LeEncodeUint (i : Nat) : List Nat :=
  if i ≤ 255 then LeEncodeUint8 i
  else if i ≤ 65535 then LeEncodeUint16 i
  else if i ≤ 4294967295 then LeEncodeUint32 i
  else LeEncodeUint64 i

/-- The tagged union of values accepted by the LeEncode type switch. The Go
interface nil is the constructor `nil`; the default (reflective) branch of
the switch is outside the recognized scalar/string/bytes kinds and is not
needed by any claim. -/
inductive Value where
  | nil
  | int (i : Int)
  | int8 (i : Int)
  | int16 (i : Int)
  | int32 (i : Int)
  | int64 (i : Int)
  | uint (n : Nat)
  | uint8 (n : Nat)
  | uint16 (n : Nat)
  | uint32 (n : Nat)
  | uint64 (n : Nat)
  | bool (b : Bool)
  | str (s : List Nat)
  | bytes (bs : List Nat)
  | float32 (bits : Nat)
  | float64 (bits : Nat)
deriving DecidableEq

/-- One arm of the LeEncode type switch. -/
def encodeValue : Value → List Nat
  | .nil => []
  | .int i => LeEncodeInt i
  | .int8 i => LeEncodeInt8 i
  | .int16 i => LeEncodeInt16 i
  | .int32 i => LeEncodeInt32 i
  | .int64 i => LeEncodeInt64 i
  | .uint n => LeEncodeUint n
  | .uint8 n => LeEncodeUint8 n
  | .uint16 n => LeEncodeUint16 n
  | .uint32 n => LeEncodeUint32 n
  | .uint64 n => LeEncodeUint64 n
  | .bool b => LeEncodeBool b
  | .str s => LeEncodeString s
  | .bytes bs => bs
  | .float32 bits => LeEncodeFloat32 bits
  | .float64 bits => LeEncodeFloat64 bits

/-- LeEncode: concatenates the per-value encodings, returning the bytes
accumulated so far as soon as a nil value is met. -/
def LeEncode : List Value → List Nat
  | [] => []
  | v :: rest => if v = Value.nil then [] else encodeValue v ++ LeEncode rest

/-- LeEncodeByLength: LeEncode, then right-pad with zero bytes or truncate
on the right to the requested length. -/
def LeEncodeByLength (length : Nat) (values : List Value) : List Nat :=
  if (LeEncode values).length < length then
    LeEncode values ++ List.replicate (length - (LeEncode values).length) 0
  else if length < (LeEncode values).length then (LeEncode values).take length
  else LeEncode values

/-- LeFillUpSize: b[:l] when b is long enough, else b copied into a fresh
zero buffer of length l (right zero-padding). -/
def LeFillUpSize (b : List Nat) (l : Nat) : List Nat :=
  if l ≤ b.length then b.take l
  else b ++ List.replicate (l - b.length) 0

/-- LeDecodeToString. -/
def LeDecodeToString (b : List Nat) : List Nat := b

/-- LeDecodeToBool: non-empty and first byte nonzero. -/
def LeDecodeToBool (b : List Nat) : Bool :=
  match b with
  | [] => false
  | c :: _ => c % 256 != 0

/-- LeDecodeToInt8: reads b[0] directly; the Go code panics on an empty
buffer, modelled with Option (none = index panic). -/
def LeDecodeToInt8 (b : List Nat) : Option Int :=
  match b with
  | [] => none
  | c :: _ => some (toSigned 8 (c % 256))

/-- LeDecodeToUint8: reads b[0] directly; the Go code panics on an empty
buffer, modelled with Option (none = index panic). -/
def LeDecodeToUint8 (b : List Nat) : Option Nat :=
  match b with
  | [] => none
  | c :: _ => some (c % 256)

/-- LeDecodeToInt16. -/
def LeDecodeToInt16 (b : List Nat) : Int := toSigned 16 (getLE (LeFillUpSize b 2))

/-- LeDecodeToUint16. -/
def LeDecodeToUint16 (b : List Nat) : Nat := getLE (LeFillUpSize b 2)

/-- LeDecodeToInt32. -/
def LeDecodeToInt32 (b : List Nat) : Int := toSigned 32 (getLE (LeFillUpSize b 4))

/-- LeDecodeToUint32. -/
def LeDecodeToUint32 (b : List Nat) : Nat := getLE (LeFillUpSize b 4)

/-- LeDecodeToInt64. -/
def LeDecodeToInt64 (b : List Nat) : Int := toSigned 64 (getLE (LeFillUpSize b 8))

/-- LeDecodeToUint64. -/
def LeDecodeToUint64 (b : List Nat) : Nat := getLE (LeFillUpSize b 8)

/-- LeDecodeToInt: int(LeDecodeToInt64(b)) on a 64-bit platform. -/
def LeDecodeToInt (b : List Nat) : Int := LeDecodeToInt64 b

/-- LeDecodeToUint: uint(LeDecodeToUint64(b)) on a 64-bit platform. -/
def LeDecodeToUint (b : List Nat) : Nat := LeDecodeToUint64 b

/-- LeDecodeToFloat32: the decoded IEEE-754 bit pattern
(math.Float32frombits left implicit, a bijection on patterns). -/
def LeDecodeToFloat32 (b : List Nat) : Nat := getLE (LeFillUpSize b 4)

/-- LeDecodeToFloat64: the decoded IEEE-754 bit pattern
(math.Float64frombits left implicit, a bijection on patterns). -/
def LeDecodeToFloat64 (b : List Nat) : Nat := getLE (LeFillUpSize b 8)

/-- A typed destination slot for the strict multi-slot decoder, as handed to
binary.Read (pointer to a fixed-size value). -/
inductive Slot where
  | i8
  | u8
  | i16
  | u16
  | i32
  | u32
  | i64
  | u64
  | f32
  | f64
deriving DecidableEq

/-- binary.Size of a slot: the fixed byte width binary.Read consumes. -/
def slotSize : Slot → Nat
  | .i8 => 1
  | .u8 => 1
  | .i16 => 2
  | .u16 => 2
  | .i32 => 4
  | .u32 => 4
  | .i64 => 8
  | .u64 => 8
  | .f32 => 4
  | .f64 => 8

/-- The value binary.Read stores into a slot from exactly slotSize bytes:
little-endian, two's-complement reinterpretation for the signed kinds,
IEEE-754 bit pattern for the float kinds. -/
def decodeSlot : Slot → List Nat → Int
  | .i8, bs => toSigned 8 (getLE bs)
  | .u8, bs => (getLE bs : Int)
  | .i16, bs => toSigned 16 (getLE bs)
  | .u16, bs => (getLE bs : Int)
  | .i32, bs => toSigned 32 (getLE bs)
  | .u32, bs => (getLE bs : Int)
  | .i64, bs => toSigned 64 (getLE bs)
  | .u64, bs => (getLE bs : Int)
  | .f32, bs => (getLE bs : Int)
  | .f64, bs => (getLE bs : Int)

/-- The error value of the strict decoder: errors.Wrap(cause, ctx). -/
inductive Err where
  | wrapped (ctx : String) (cause : String)
deriving DecidableEq

/-- LeDecode: sequential binary.Read calls against a bytes.Buffer over b.
Returns the error (none on success) together with the list of slot values
actually written, in order: binary.Read reads the full width into a scratch
buffer before storing, so the slot at which the buffer runs short is never
written, while slots decoded earlier already are. io.ReadFull yields EOF
when no byte remains and ErrUnexpectedEOF on a partial read. -/
def LeDecode : List Nat → List Slot → Option Err × List Int
  | _, [] => (none, [])
  | b, s :: rest =>
    if slotSize s ≤ b.length then
      ((LeDecode (b.drop (slotSize s)) rest).1,
        decodeSlot s (b.take (slotSize s)) :: (LeDecode (b.drop (slotSize s)) rest).2)
    else
      (some (Err.wrapped "binary.Read failed"
        (if b.length = 0 then "EOF" else "unexpected EOF")), [])

/-- Specification-side helper: decode a buffer produced by the adaptive
sizer back at the width the sizer chose (the width is the buffer length). -/
def decodeSignedAuto (b : List Nat) : Option Int :=
  if b.length = 1 then LeDecodeToInt8 b
  else if b.length = 2 then some (LeDecodeToInt16 b)
  else if b.length = 4 then some (LeDecodeToInt32 b)
  else if b.length = 8 then some (LeDecodeToInt64 b)
  else none

/-- Specification-side definition, following the claim text: the minimal
byte width in {1,2,4,8} whose two's-complement representable range
contains i. -/
def specMinSignedWidth (i : Int) : Nat :=
  if -128 ≤ i ∧ i ≤ 127 then 1
  else if -32768 ≤ i ∧ i ≤ 32767 then 2
  else if -2147483648 ≤ i ∧ i ≤ 2147483647 then 4
  else 8

/-- RS: the 32-bit RS hash, multiply-accumulate with constants 378551 and
63689, all arithmetic modulo 2^32. The fold state is (hash, a). -/
def rsStep (p : Nat × Nat) (c : Nat) : Nat × Nat :=
  ((p.1 * p.2 + c % 256) % 4294967296, p.2 * 378551 % 4294967296)

/-- RS over a byte string. -/
def RS (str : List Nat) : Nat := (str.foldl rsStep (0, 63689)).1

/-- RS64: the same loop with all arithmetic modulo 2^64. -/
def rsStep64 (p : Nat × Nat) (c : Nat) : Nat × Nat :=
  ((p.1 * p.2 + c % 256) % 18446744073709551616, p.2 * 378551 % 18446744073709551616)

/-- RS64 over a byte string. -/
def RS64 (str : List Nat) : Nat := (str.foldl rsStep64 (0, 63689)).1

theorem putLE_length (n v : Nat) : (putLE n v).length = n := by
  induction n generalizing v with
  | zero => simp [putLE]
  | succ k ih => simp [putLE, ih]

theorem getLE_putLE (n v : Nat) : getLE (putLE n v) = v % 256 ^ n := by
  induction n generalizing v with
  | zero => simp [putLE, getLE, Nat.mod_one]
  | succ k ih =>
    have h1 : v % 256 % 256 = v % 256 := by omega
    rw [putLE, getLE, ih, h1, pow_succ, mul_comm (256 ^ k) 256, Nat.mod_mul]

theorem getLE_lt (b : List Nat) : getLE b < 256 ^ b.length := by
  induction b with
  | nil => simp [getLE]
  | cons c rest ih =>
    have h1 : c % 256 < 256 := Nat.mod_lt _ (by norm_num)
    have h2 : 256 ^ (c :: rest).length = 256 * 256 ^ rest.length := by
      simp [List.length_cons, pow_succ, mul_comm]
    rw [getLE, h2]
    omega

theorem getLE_append (a b : List Nat) :
    getLE (a ++ b) = getLE a + 256 ^ a.length * getLE b := by
  induction a with
  | nil => simp [getLE]
  | cons c rest ih =>
    rw [List.cons_append, getLE, ih, getLE]
    rw [List.length_cons, pow_succ]
    ring

theorem getLE_replicate_zero (n : Nat) : getLE (List.replicate n 0) = 0 := by
  induction n with
  | zero => simp [getLE]
  | succ k ih => rw [List.replicate_succ, getLE, ih]

theorem LeFillUpSize_of_length_eq (b : List Nat) (l : Nat) (h : b.length = l) :
    LeFillUpSize b l = b := by
  simp [LeFillUpSize, h.ge, ← h, List.take_length]

theorem toSigned8_emod (i : Int) (h1 : -128 ≤ i) (h2 : i ≤ 127) :
    toSigned 8 (i % 256).toNat = i := by
  unfold toSigned
  norm_num
  split <;> omega

theorem toSigned16_emod (i : Int) (h1 : -32768 ≤ i) (h2 : i ≤ 32767) :
    toSigned 16 (i % 65536).toNat = i := by
  unfold toSigned
  norm_num
  split <;> omega

theorem toSigned32_emod (i : Int) (h1 : -2147483648 ≤ i) (h2 : i ≤ 2147483647) :
    toSigned 32 (i % 4294967296).toNat = i := by
  unfold toSigned
  norm_num
  split <;> omega

theorem toSigned64_emod (i : Int) (h1 : -9223372036854775808 ≤ i)
    (h2 : i ≤ 9223372036854775807) :
    toSigned 64 (i % 18446744073709551616).toNat = i := by
  unfold toSigned
  norm_num
  split <;> omega

theorem int8_roundtrip (i : Int) (h1 : -128 ≤ i) (h2 : i ≤ 127) :
    LeDecodeToInt8 (LeEncodeInt8 i) = some i := by
  have hlt : (i % 256).toNat % 256 = (i % 256).toNat := by omega
  simp only [LeEncodeInt8, LeDecodeToInt8]
  rw [hlt, toSigned8_emod i h1 h2]

theorem uint8_roundtrip (n : Nat) (h : n ≤ 255) :
    LeDecodeToUint8 (LeEncodeUint8 n) = some n := by
  simp only [LeEncodeUint8, LeDecodeToUint8, Option.some.injEq]
  omega

theorem int16_roundtrip (i : Int) (h1 : -32768 ≤ i) (h2 : i ≤ 32767) :
    LeDecodeToInt16 (LeEncodeInt16 i) = i := by
  have hfill := LeFillUpSize_of_length_eq (putLE 2 (i % 65536).toNat) 2 (putLE_length 2 _)
  have hp : (256 : Nat) ^ 2 = 65536 := by norm_num
  have hm : (i % 65536).toNat % 65536 = (i % 65536).toNat := by omega
  simp only [LeDecodeToInt16, LeEncodeInt16, hfill, getLE_putLE, hp, hm]
  exact toSigned16_emod i h1 h2

theorem uint16_roundtrip (n : Nat) (h : n ≤ 65535) :
    LeDecodeToUint16 (LeEncodeUint16 n) = n := by
  have hfill := LeFillUpSize_of_length_eq (putLE 2 n) 2 (putLE_length 2 n)
  have hp : (256 : Nat) ^ 2 = 65536 := by norm_num
  simp only [LeDecodeToUint16, LeEncodeUint16, hfill, getLE_putLE, hp]
  omega

theorem int32_roundtrip (i : Int) (h1 : -2147483648 ≤ i) (h2 : i ≤ 2147483647) :
    LeDecodeToInt32 (LeEncodeInt32 i) = i := by
  have hfill := LeFillUpSize_of_length_eq (putLE 4 (i % 4294967296).toNat) 4 (putLE_length 4 _)
  have hp : (256 : Nat) ^ 4 = 4294967296 := by norm_num
  have hm : (i % 4294967296).toNat % 4294967296 = (i % 4294967296).toNat := by omega
  simp only [LeDecodeToInt32, LeEncodeInt32, hfill, getLE_putLE, hp, hm]
  exact toSigned32_emod i h1 h2

theorem uint32_roundtrip (n : Nat) (h : n ≤ 4294967295) :
    LeDecodeToUint32 (LeEncodeUint32 n) = n := by
  have hfill := LeFillUpSize_of_length_eq (putLE 4 n) 4 (putLE_length 4 n)
  have hp : (256 : Nat) ^ 4 = 4294967296 := by norm_num
  simp only [LeDecodeToUint32, LeEncodeUint32, hfill, getLE_putLE, hp]
  omega

theorem int64_roundtrip (i : Int) (h1 : -9223372036854775808 ≤ i)
    (h2 : i ≤ 9223372036854775807) :
    LeDecodeToInt64 (LeEncodeInt64 i) = i := by
  have hfill := LeFillUpSize_of_length_eq (putLE 8 (i % 18446744073709551616).toNat) 8
    (putLE_length 8 _)
  have hp : (256 : Nat) ^ 8 = 18446744073709551616 := by norm_num
  have hm : (i % 18446744073709551616).toNat % 18446744073709551616 =
      (i % 18446744073709551616).toNat := by omega
  simp only [LeDecodeToInt64, LeEncodeInt64, hfill, getLE_putLE, hp, hm]
  exact toSigned64_emod i h1 h2

theorem uint64_roundtrip (n : Nat) (h : n ≤ 18446744073709551615) :
    LeDecodeToUint64 (LeEncodeUint64 n) = n := by
  have hfill := LeFillUpSize_of_length_eq (putLE 8 n) 8 (putLE_length 8 n)
  have hp : (256 : Nat) ^ 8 = 18446744073709551616 := by norm_num
  simp only [LeDecodeToUint64, LeEncodeUint64, hfill, getLE_putLE, hp]
  omega

theorem toSigned8_ge (n : Nat) : -128 ≤ toSigned 8 n := by
  unfold toSigned
  norm_num
  split <;> omega

theorem LeEncodeUint_length (n : Nat) :
    (LeEncodeUint n).length =
      if n ≤ 255 then 1 else if n ≤ 65535 then 2
      else if n ≤ 4294967295 then 4 else 8 := by
  unfold LeEncodeUint LeEncodeUint8 LeEncodeUint16 LeEncodeUint32 LeEncodeUint64
  split_ifs <;> simp [putLE_length]

theorem decodeToInt64_short_nonneg_aux (b : List Nat) (h : b.length < 8) :
    0 ≤ LeDecodeToInt64 b := by
  have hfill : LeFillUpSize b 8 = b ++ List.replicate (8 - b.length) 0 := by
    unfold LeFillUpSize
    rw [if_neg (by omega)]
  have hg : getLE (LeFillUpSize b 8) = getLE b := by
    rw [hfill, getLE_append, getLE_replicate_zero, mul_zero, add_zero]
  have h1 := getLE_lt b
  have h2 : (256 : Nat) ^ b.length ≤ 256 ^ 7 := Nat.pow_le_pow_right (by norm_num) (by omega)
  have h3 : (256 : Nat) ^ 7 = 72057594037927936 := by norm_num
  have hlt : getLE b < 9223372036854775808 := by omega
  unfold LeDecodeToInt64 toSigned
  rw [hg, if_pos (by norm_num; omega)]
  exact Int.ofNat_nonneg _

theorem rs_trunc_aux (str : List Nat) (h32 a32 h64 a64 : Nat)
    (hh : h32 = h64 % 4294967296) (ha : a32 = a64 % 4294967296) :
    (str.foldl rsStep (h32, a32)).1 = (str.foldl rsStep64 (h64, a64)).1 % 4294967296 := by
  induction str generalizing h32 a32 h64 a64 with
  | nil => simpa using hh
  | cons c rest ih =>
    have hdvd : (4294967296 : Nat) ∣ 18446744073709551616 := by norm_num
    have hkey : (h32 * a32 + c % 256) % 4294967296 =
        (h64 * a64 + c % 256) % 18446744073709551616 % 4294967296 := by
      rw [Nat.mod_mod_of_dvd _ hdvd]
      subst hh ha
      exact Nat.ModEq.add_right _ ((Nat.mod_modEq h64 _).mul (Nat.mod_modEq a64 _))
    have hakey : a32 * 378551 % 4294967296 =
        a64 * 378551 % 18446744073709551616 % 4294967296 := by
      rw [Nat.mod_mod_of_dvd _ hdvd]
      subst ha
      exact Nat.ModEq.mul_right _ (Nat.mod_modEq a64 _)
    simp only [List.foldl_cons, rsStep, rsStep64]
    exact ih _ _ _ _ hkey hakey

/-- Claim C7: round-trip for the fixed-width integer types: for each of
int8, uint8, int16, uint16, int32, uint32, int64, uint64 and every
representable value v, decoding the encoding of v at the same width and
signedness returns v. -/
theorem fixed_width_roundtrip :
    (∀ i : Int, -128 ≤ i → i ≤ 127 → LeDecodeToInt8 (LeEncodeInt8 i) = some i) ∧
    (∀ n : Nat, n ≤ 255 → LeDecodeToUint8 (LeEncodeUint8 n) = some n) ∧
    (∀ i : Int, -32768 ≤ i → i ≤ 32767 → LeDecodeToInt16 (LeEncodeInt16 i) = i) ∧
    (∀ n : Nat, n ≤ 65535 → LeDecodeToUint16 (LeEncodeUint16 n) = n) ∧
    (∀ i : Int, -2147483648 ≤ i → i ≤ 2147483647 →
      LeDecodeToInt32 (LeEncodeInt32 i) = i) ∧
    (∀ n : Nat, n ≤ 4294967295 → LeDecodeToUint32 (LeEncodeUint32 n) = n) ∧
    (∀ i : Int, -9223372036854775808 ≤ i → i ≤ 9223372036854775807 →
      LeDecodeToInt64 (LeEncodeInt64 i) = i) ∧
    (∀ n : Nat, n ≤ 18446744073709551615 → LeDecodeToUint64 (LeEncodeUint64 n) = n) :=
  ⟨int8_roundtrip, uint8_roundtrip, int16_roundtrip, uint16_roundtrip,
    int32_roundtrip, uint32_roundtrip, int64_roundtrip, uint64_roundtrip⟩

/-- Claim C5: lenient single-value decoding pads and truncates: a buffer
shorter than the target width is right-padded with zero bytes, a longer one
is cut to the width, and concretely LeDecodeToUint16 [0x05] = 5 and
LeDecodeToUint16 [0x05, 0x00, 0xFF] = 5. -/
theorem leFillUpSize_pad_truncate (b : List Nat) (l : Nat) :
    (b.length < l → LeFillUpSize b l = b ++ List.replicate (l - b.length) 0) ∧
    (l ≤ b.length → LeFillUpSize b l = b.take l) ∧
    LeDecodeToUint16 [5] = 5 ∧ LeDecodeToUint16 [5, 0, 255] = 5 := by
  refine ⟨fun h => ?_, fun h => ?_, by decide, by decide⟩
  · unfold LeFillUpSize
    rw [if_neg (by omega)]
  · unfold LeFillUpSize
    rw [if_pos h]

/-- Claim C2 counterexample: the 8-bit decode primitives read b[0] without
any padding, so on the empty buffer they have no result (the Go code
panics); not every single-value decode primitive is total. -/
theorem decode8_empty_counterexample :
    LeDecodeToInt8 [] = none ∧ LeDecodeToUint8 [] = none :=
  ⟨rfl, rfl⟩

/-- Claim C2 (amended): every single-value decode primitive except
LeDecodeToInt8 and LeDecodeToUint8 is a total function of the buffer,
defined on the empty buffer via zero padding as below; the two 8-bit
primitives return a value exactly when the buffer is non-empty. -/
theorem decode_primitives_totality (b : List Nat) :
    ((LeDecodeToInt8 b).isSome ↔ b ≠ []) ∧ ((LeDecodeToUint8 b).isSome ↔ b ≠ []) ∧
    LeDecodeToBool [] = false ∧ LeDecodeToInt16 [] = 0 ∧ LeDecodeToUint16 [] = 0 ∧
    LeDecodeToInt32 [] = 0 ∧ LeDecodeToUint32 [] = 0 ∧ LeDecodeToInt64 [] = 0 ∧
    LeDecodeToUint64 [] = 0 ∧ LeDecodeToFloat32 [] = 0 ∧ LeDecodeToFloat64 [] = 0 ∧
    LeDecodeToString [] = [] := by
  refine ⟨?_, ?_, by decide, by decide, by decide, by decide, by decide, by decide,
    by decide, by decide, by decide, rfl⟩
  · cases b <;> simp [LeDecodeToInt8]
  · cases b <;> simp [LeDecodeToUint8]

/-- Claim C4: LeEncode stops at the first nil sentinel: the output is
exactly the concatenation of the encodings of the values before it, and
the values at or after the sentinel contribute no bytes. -/
theorem leEncode_nil_sentinel (pre post : List Value) (h : Value.nil ∉ pre) :
    LeEncode (pre ++ Value.nil :: post) = (pre.map encodeValue).flatten ∧
    LeEncode pre = (pre.map encodeValue).flatten := by
  induction pre with
  | nil => simp [LeEncode]
  | cons v rest ih =>
    have hv : v ≠ Value.nil := by
      intro hh
      exact h (by simp [hh])
    have hrest : Value.nil ∉ rest := by
      intro hh
      exact h (by simp [hh])
    obtain ⟨ih1, ih2⟩ := ih hrest
    constructor
    · rw [List.cons_append, LeEncode, if_neg hv, ih1, List.map_cons, List.flatten_cons]
    · rw [LeEncode, if_neg hv, ih2, List.map_cons, List.flatten_cons]

/-- Claim C4 witness: encoding [uint32 7, nil, uint32 9] yields exactly the
four little-endian bytes of 7. -/
theorem leEncode_nil_sentinel_witness :
    LeEncode [Value.uint32 7, Value.nil, Value.uint32 9] = [7, 0, 0, 0] := by
  have h := (leEncode_nil_sentinel [Value.uint32 7] [Value.uint32 9] (by decide)).1
  simpa [encodeValue, LeEncodeUint32, putLE] using h

/-- Claim C6: LeEncodeByLength always returns exactly the requested number
of bytes: the first N bytes of the unnormalized encoding when that is
longer, and the unnormalized encoding followed by zero bytes when it is
shorter. -/
theorem leEncodeByLength_normalizes (N : Nat) (values : List Value) :
    (LeEncodeByLength N values).length = N ∧
    (N < (LeEncode values).length →
      LeEncodeByLength N values = (LeEncode values).take N) ∧
    ((LeEncode values).length < N →
      LeEncodeByLength N values =
        LeEncode values ++ List.replicate (N - (LeEncode values).length) 0) := by
  refine ⟨?_, fun h => ?_, fun h => ?_⟩
  · unfold LeEncodeByLength
    split_ifs with h1 h2
    · simp only [List.length_append, List.length_replicate]
      omega
    · simp only [List.length_take]
      omega
    · omega
  · unfold LeEncodeByLength
    rw [if_neg (by omega), if_pos h]
  · unfold LeEncodeByLength
    rw [if_pos h]

/-- Claim C8: the width chosen by the adaptive unsigned sizer is monotone
in the value, and a value equal to a width's maximum still uses that width
(255 uses 1 byte, 65535 uses 2, 4294967295 uses 4). -/
theorem leEncodeUint_width_monotone (v1 v2 : Nat) (h : v1 < v2) :
    (LeEncodeUint v1).length ≤ (LeEncodeUint v2).length ∧
    (LeEncodeUint 255).length = 1 ∧ (LeEncodeUint 65535).length = 2 ∧
    (LeEncodeUint 4294967295).length = 4 := by
  refine ⟨?_, by decide, by decide, by decide⟩
  rw [LeEncodeUint_length, LeEncodeUint_length]
  split_ifs <;> omega

/-- Claim C8 witness: 300 < 70000 and the chosen widths are ordered. -/
theorem leEncodeUint_width_monotone_witness :
    (LeEncodeUint 300).length ≤ (LeEncodeUint 70000).length ∧
    (LeEncodeUint 255).length = 1 ∧ (LeEncodeUint 65535).length = 2 ∧
    (LeEncodeUint 4294967295).length = 4 :=
  leEncodeUint_width_monotone 300 70000 (by decide)

/-- Claim C9: lenient signed decode zero-extends: any buffer of fewer than
8 bytes decodes to a non-negative int64 (and int), so a negative value
encoded adaptively (always at 1 byte) never decodes back to itself through
LeDecodeToInt64. -/
theorem leDecode_short_zero_extends (b : List Nat) (h : b.length < 8) :
    0 ≤ LeDecodeToInt64 b ∧ 0 ≤ LeDecodeToInt b ∧
    (∀ i : Int, i < 0 → LeDecodeToInt64 (LeEncodeInt i) ≠ i) := by
  refine ⟨decodeToInt64_short_nonneg_aux b h, ?_, ?_⟩
  · unfold LeDecodeToInt
    exact decodeToInt64_short_nonneg_aux b h
  · intro i hi
    have hlen : (LeEncodeInt i).length = 1 := by
      unfold LeEncodeInt
      rw [if_pos (by omega : i ≤ 127)]
      simp [LeEncodeInt8]
    have hnn := decodeToInt64_short_nonneg_aux (LeEncodeInt i) (by omega)
    omega

/-- Claim C9 witness: the three-byte buffer of all 0xFF decodes
non-negatively. -/
theorem leDecode_short_zero_extends_witness :
    0 ≤ LeDecodeToInt64 [255, 255, 255] ∧ 0 ≤ LeDecodeToInt [255, 255, 255] ∧
    (∀ i : Int, i < 0 → LeDecodeToInt64 (LeEncodeInt i) ≠ i) :=
  leDecode_short_zero_extends [255, 255, 255] (by decide)

/-- Claim C10: the 32-bit RS hash is the low-32-bit truncation of the
64-bit RS hash on every byte string. -/
theorem rs_hash_truncation (str : List Nat) : RS str = RS64 str % 4294967296 := by
  unfold RS RS64
  exact rs_trunc_aux str 0 63689 0 63689 (by norm_num) (by norm_num)

/-- Claim C1 counterexample: at v = -200 the encoder picks 1 byte although
the minimal containing width is 2 bytes (the 8-bit minimum -128 is above
-200), and decoding the produced byte at the chosen width returns 56, not
-200: the adaptive sizer is lossy for negative values below -128. -/
theorem leEncodeInt_neg200_lossy :
    LeEncodeInt (-200) = [56] ∧ specMinSignedWidth (-200) = 2 ∧
    decodeSignedAuto (LeEncodeInt (-200)) = some 56 ∧ (56 : Int) ≠ -200 := by
  decide

/-- Claim C1 (amended): for non-negative native ints the adaptive sizer
picks the minimal containing width and decoding at that width returns the
value; for negative ints the code compares only against the upper bounds,
so it always picks 1 byte, and decoding returns the value exactly when
-128 ≤ v (below that the encoding is lossy). -/
theorem leEncodeInt_sizer (i : Int) (hlo : -9223372036854775808 ≤ i)
    (hhi : i ≤ 9223372036854775807) :
    (0 ≤ i → (LeEncodeInt i).length = specMinSignedWidth i ∧
      decodeSignedAuto (LeEncodeInt i) = some i) ∧
    (i < 0 → (LeEncodeInt i).length = 1 ∧
      (-128 ≤ i → decodeSignedAuto (LeEncodeInt i) = some i) ∧
      (i < -128 → decodeSignedAuto (LeEncodeInt i) ≠ some i)) := by
  have hlen8 : ∀ j : Int, (LeEncodeInt8 j).length = 1 := fun j => by simp [LeEncodeInt8]
  constructor
  · intro h0
    by_cases h1 : i ≤ 127
    · have henc : LeEncodeInt i = LeEncodeInt8 i := by
        unfold LeEncodeInt
        rw [if_pos h1]
      have hlen : (LeEncodeInt i).length = 1 := by
        rw [henc]
        exact hlen8 i
      have hmin : specMinSignedWidth i = 1 := by
        unfold specMinSignedWidth
        rw [if_pos ⟨by omega, h1⟩]
      have hdec : decodeSignedAuto (LeEncodeInt i) = LeDecodeToInt8 (LeEncodeInt i) := by
        unfold decodeSignedAuto
        rw [if_pos hlen]
      refine ⟨by rw [hlen, hmin], ?_⟩
      rw [hdec, henc]
      exact int8_roundtrip i (by omega) h1
    · by_cases h2 : i ≤ 32767
      · have henc : LeEncodeInt i = LeEncodeInt16 i := by
          unfold LeEncodeInt
          rw [if_neg h1, if_pos h2]
        have hlen : (LeEncodeInt i).length = 2 := by
          rw [henc]
          exact putLE_length 2 _
        have hmin : specMinSignedWidth i = 2 := by
          unfold specMinSignedWidth
          rw [if_neg (by omega), if_pos ⟨by omega, h2⟩]
        have hdec : decodeSignedAuto (LeEncodeInt i) =
            some (LeDecodeToInt16 (LeEncodeInt i)) := by
          unfold decodeSignedAuto
          rw [if_neg (by omega), if_pos hlen]
        refine ⟨by rw [hlen, hmin], ?_⟩
        rw [hdec, henc, int16_roundtrip i (by omega) h2]
      · by_cases h3 : i ≤ 2147483647
        · have henc : LeEncodeInt i = LeEncodeInt32 i := by
            unfold LeEncodeInt
            rw [if_neg h1, if_neg h2, if_pos h3]
          have hlen : (LeEncodeInt i).length = 4 := by
            rw [henc]
            exact putLE_length 4 _
          have hmin : specMinSignedWidth i = 4 := by
            unfold specMinSignedWidth
            rw [if_neg (by omega), if_neg (by omega), if_pos ⟨by omega, h3⟩]
          have hdec : decodeSignedAuto (LeEncodeInt i) =
              some (LeDecodeToInt32 (LeEncodeInt i)) := by
            unfold decodeSignedAuto
            rw [if_neg (by omega), if_neg (by omega), if_pos hlen]
          refine ⟨by rw [hlen, hmin], ?_⟩
          rw [hdec, henc, int32_roundtrip i (by omega) h3]
        · have henc : LeEncodeInt i = LeEncodeInt64 i := by
            unfold LeEncodeInt
            rw [if_neg h1, if_neg h2, if_neg h3]
          have hlen : (LeEncodeInt i).length = 8 := by
            rw [henc]
            exact putLE_length 8 _
          have hmin : specMinSignedWidth i = 8 := by
            unfold specMinSignedWidth
            rw [if_neg (by omega), if_neg (by omega), if_neg (by omega)]
          have hdec : decodeSignedAuto (LeEncodeInt i) =
              some (LeDecodeToInt64 (LeEncodeInt i)) := by
            unfold decodeSignedAuto
            rw [if_neg (by omega), if_neg (by omega), if_neg (by omega), if_pos hlen]
          refine ⟨by rw [hlen, hmin], ?_⟩
          rw [hdec, henc, int64_roundtrip i hlo hhi]
  · intro hneg
    have h1 : i ≤ 127 := by omega
    have henc : LeEncodeInt i = LeEncodeInt8 i := by
      unfold LeEncodeInt
      rw [if_pos h1]
    have hlen : (LeEncodeInt i).length = 1 := by
      rw [henc]
      exact hlen8 i
    have hdec : decodeSignedAuto (LeEncodeInt i) = LeDecodeToInt8 (LeEncodeInt i) := by
      unfold decodeSignedAuto
      rw [if_pos hlen]
    refine ⟨hlen, fun hge => ?_, fun hlt => ?_⟩
    · rw [hdec, henc]
      exact int8_roundtrip i hge h1
    · rw [hdec, henc]
      simp only [LeEncodeInt8, LeDecodeToInt8, Option.some.injEq]
      intro heq
      have heq2 := Option.some.inj heq
      have h8 := toSigned8_ge ((i % 256).toNat % 256)
      omega

/-- Claim C1 witness: at v = 1000 the sizer picks 2 bytes, the minimal
containing width, and decoding returns 1000. -/
theorem leEncodeInt_sizer_witness :
    (0 ≤ (1000 : Int) → (LeEncodeInt 1000).length = specMinSignedWidth 1000 ∧
      decodeSignedAuto (LeEncodeInt 1000) = some 1000) ∧
    ((1000 : Int) < 0 → (LeEncodeInt 1000).length = 1 ∧
      (-128 ≤ (1000 : Int) → decodeSignedAuto (LeEncodeInt 1000) = some 1000) ∧
      ((1000 : Int) < -128 → decodeSignedAuto (LeEncodeInt 1000) ≠ some 1000)) :=
  leEncodeInt_sizer 1000 (by norm_num) (by norm_num)

/-- Claim C3 counterexample: decoding two 4-byte slots from a 5-byte buffer
does fail with the wrapped short-buffer error, but the first slot has
already been populated with the value of the first four bytes, so the part
of the claim stating that no destination slot is written is false. -/
theorem leDecode_writes_first_slot :
    LeDecode [1, 0, 0, 0, 2] [Slot.u32, Slot.u32] =
      (some (Err.wrapped "binary.Read failed" "unexpected EOF"), [1]) ∧
    (LeDecode [1, 0, 0, 0, 2] [Slot.u32, Slot.u32]).2 ≠ [] := by
  refine ⟨?_, ?_⟩ <;> decide

/-- Claim C3 (amended): whenever the buffer is exhausted before some slot
can be filled (the total width of the slots exceeds the buffer length),
LeDecode surfaces a wrapped short-buffer error; the slot at which the
buffer runs short and all later slots are not written (in particular they
are never silently zero-filled), though slots fully decoded before the
failure point have already been populated. -/
theorem leDecode_short_buffer (b : List Nat) (slots : List Slot)
    (h : b.length < (slots.map slotSize).sum) :
    (∃ c, (LeDecode b slots).1 = some (Err.wrapped "binary.Read failed" c)) ∧
    (LeDecode b slots).2.length < slots.length := by
  induction slots generalizing b with
  | nil => simp at h
  | cons s rest ih =>
    by_cases hs : slotSize s ≤ b.length
    · have hlt : (b.drop (slotSize s)).length < (rest.map slotSize).sum := by
        simp only [List.length_drop]
        simp only [List.map_cons, List.sum_cons] at h
        omega
      have hrec := ih (b.drop (slotSize s)) hlt
      rw [LeDecode, if_pos hs]
      refine ⟨hrec.1.imp fun c hc => ?_, ?_⟩
      · simpa using hc
      · simpa using Nat.succ_lt_succ hrec.2
    · rw [LeDecode, if_neg hs]
      exact ⟨⟨_, rfl⟩, by simp⟩

/-- Claim C3 witness: two 4-byte slots against a 5-byte buffer. -/
theorem leDecode_short_buffer_witness :
    (∃ c, (LeDecode [1, 0, 0, 0, 2] [Slot.u32, Slot.u32]).1 =
      some (Err.wrapped "binary.Read failed" c)) ∧
    (LeDecode [1, 0, 0, 0, 2] [Slot.u32, Slot.u32]).2.length <
      ([Slot.u32, Slot.u32] : List Slot).length :=
  leDecode_short_buffer [1, 0, 0, 0, 2] [Slot.u32, Slot.u32] (by decide)

end Loom
